import Mathlib

/-!
Verification of the Gitiles commit-crawler (src/main.go) against its
natural-language specification.

The Go program drives a remote browser, fetches commit pages, and extracts
fields from the rendered HTML by structural search over the parsed node tree
(package golang.org/x/net/html).  We embed:

* the parsed HTML tree: `html.Node` links nodes through `FirstChild` and
  `NextSibling` pointers (plus a back pointer `Parent`), so a node is
  modelled as its type, data, attribute list, first child and next sibling,
  with `HNode.nil` for a nil pointer.  The `Parent` back pointer is
  reconstructed by passing the needed context down the recursion.  The
  external parser `html.Parse` is not modelled — every theorem quantifies
  over already-parsed trees, exactly the interface the spec gives the
  Field Extractor;
* the five extractors (`getMainLink`, `getCommitHash`, `getAuthor`,
  `getCommitMessage`, `getParentCommitLink`) as recursive functions over
  that tree.  A Go nil-pointer dereference (e.g. `n.Parent.NextSibling`
  when `Parent` is nil) is modelled as the explicit outcome
  `GoErr.nilPanic`, distinct from an `fmt.Errorf` "not found" return,
  because a panic aborts the process instead of being returned as an error;
* the message parser `getReviewers` and the CSV renderer `buildCSVString`
  over Go strings (modelled at the character level; all literals involved
  are ASCII, so byte indices and character indices coincide);
* the contribution map `map[string]Contribution` as an association list
  with Go's lookup/insert semantics, and the two inline recording branches
  of `run` (lines 129-133 and 140-146) as `recordCreation`/`recordReview`;
* the traversal loop of `run` (lines 99-153) as a step function and an
  iterated loop over an abstract environment providing the two external
  collaborators (page fetcher and file writer) as oracle functions.

Each Go helper of the form `f(n) = own-node case, then a loop over the
children trying `f` and keeping the first success` is embedded as a single
structural recursion over the child/sibling chain: the chain function
performs `f` on its head node (the own-node case, then the recursion into
`FirstChild`) and on failure continues with `NextSibling`; a separate
root-level definition performs `f` on the document root itself (whose
siblings Go never visits).
-/

/-- Error outcomes of the embedded Go code: an `fmt.Errorf` value returned
through an `error` result (`notFound`, carrying the message), a nil-pointer
dereference panic (`nilPanic`), and an I/O failure from an external
collaborator (`ioErr`). -/
inductive GoErr where
  | notFound : String → GoErr
  | nilPanic : GoErr
  | ioErr : String → GoErr
deriving DecidableEq, Repr

instance {ε α : Type} [DecidableEq ε] [DecidableEq α] : DecidableEq (Except ε α) := by
  intro x y
  cases x <;> cases y
  case error.error a b =>
    exact if h : a = b then .isTrue (by rw [h]) else .isFalse (by simp [h])
  case ok.ok a b =>
    exact if h : a = b then .isTrue (by rw [h]) else .isFalse (by simp [h])
  case error.ok a b => exact .isFalse (by simp)
  case ok.error a b => exact .isFalse (by simp)

/-- Node types of golang.org/x/net/html. -/
inductive GoNodeType where
  | ErrorNode | TextNode | DocumentNode | ElementNode | CommentNode | DoctypeNode
deriving DecidableEq, Repr

/-- an attribute of an HTML element (`html.Attribute`): key and value. -/
structure GoAttr where
  Key : String
  Val : String
deriving DecidableEq, Repr

/-- a parsed HTML node (`html.Node`), in the pointer layout of the Go
package: node type, data (tag name for elements, text payload for text
nodes), attribute list, `FirstChild` and `NextSibling`; `nil` is the nil
pointer.  The `Parent` back pointer is not stored — it is supplied as
context where the code reads it. -/
inductive HNode where
  | nil : HNode
  | mk : GoNodeType → String → List GoAttr → HNode → HNode → HNode
deriving DecidableEq, Repr

/-- Type of a node (`n.Type`); reading it on nil would panic, the default
is never used below. -/
def HNode.nodeType : HNode → GoNodeType
  | .nil => .ErrorNode
  | .mk t _ _ _ _ => t

/-- Data of a node (`n.Data`). -/
def HNode.data : HNode → String
  | .nil => ""
  | .mk _ d _ _ _ => d

/-- Attribute list of a node (`n.Attr`). -/
def HNode.attr : HNode → List GoAttr
  | .nil => []
  | .mk _ _ a _ _ => a

/-- First child of a node (`n.FirstChild`). -/
def HNode.firstChild : HNode → HNode
  | .nil => .nil
  | .mk _ _ _ fc _ => fc

/-- Next sibling of a node (`n.NextSibling`). -/
def HNode.nextSibling : HNode → HNode
  | .nil => .nil
  | .mk _ _ _ _ ns => ns

/-- document-order (depth-first pre-order) listing of a sibling chain: the
head node, its descendants, then the following siblings with theirs. -/
def preChain : HNode → List HNode
  | .nil => []
  | .mk t d a fc ns => .mk t d a fc ns :: (preChain fc ++ preChain ns)

/-- document-order listing of the subtree of a single node (its following
siblings excluded): the node itself, then its descendants. -/
def preorderNodes : HNode → List HNode
  | .nil => []
  | .mk t d a fc ns => .mk t d a fc ns :: preChain fc

/-- index search underlying `strings.Index`: first position (counting from
`i`) at which `sub` is a prefix of the remaining character list. -/
def goIndexAux (sub : List Char) : List Char → Nat → Option Nat
  | [], i => if sub.isPrefixOf [] then some i else none
  | c :: t, i => if sub.isPrefixOf (c :: t) then some i else goIndexAux sub t (i + 1)

/-- Go `strings.Index(s, sub)`: position of the first occurrence of `sub`
in `s`, or `-1` if absent. -/
def goIndex (s sub : String) : Int :=
  match goIndexAux sub.toList s.toList 0 with
  | some n => (n : Int)
  | none => -1

/-- Go `strings.Contains(s, sub)`, which is `strings.Index(s, sub) >= 0`. -/
def goContains (s sub : String) : Bool :=
  decide (0 ≤ goIndex s sub)

example : goContains "abc/main" "/main" = true := by decide
example : goContains "abc/mai" "/main" = false := by decide
example : goIndex "xxReviewed-by: C" "Reviewed-by: " = 2 := by decide
example : goIndex "Reviewed-by: C" "Reviewed-by: " = 0 := by decide

/-- dereference chain `.FirstChild` repeated `depth` times, ending in
`.Data`; a nil pointer along the way is a panic. -/
def derefFirstChildren : Nat → HNode → Except GoErr String
  | _, .nil => .error .nilPanic
  | 0, .mk _ d _ _ _ => .ok d
  | dep + 1, .mk _ _ _ fc _ => derefFirstChildren dep fc

/-- evaluation of `n.Parent.NextSibling.FirstChild…(.FirstChild).Data` at a
matching label node.  The first argument is the number of `.FirstChild`
steps (1 for hash/author, 2 for the parent link).  The second encodes the
node's context: `none` when `n.Parent` is nil (so reading `.NextSibling`
panics), `some s` when the parent exists and its `NextSibling` is `s`
(possibly `HNode.nil`, in which case reading `.FirstChild` panics). -/
def derefChain (depth : Nat) : Option HNode → Except GoErr String
  | none => .error .nilPanic
  | some sib => derefFirstChildren depth sib

/-- the shared recursive search of `getCommitHash`, `getAuthor` and
`getParentCommitLink`, over a sibling chain.  Go's closure `f(n)` checks
whether `n` is a text node with data `label` (returning the dereference
chain, which may panic) and otherwise tries the children in order,
returning the first success and `fmt.Errorf(msg)` when all fail; the
caller's loop moves to the next sibling whenever `f` returns an error.
Here both are fused into one recursion on the chain: the head node's own
`f` is the inner `match`/`if` (children have parent `n`, so their
`Parent.NextSibling` is `n.NextSibling`), and an error — but not a panic,
which in Go unwinds the stack instead of being returned — continues with
the next sibling.  `pns` is `Parent.NextSibling` context of every node of
this chain, as in `derefChain`. -/
def extractChain (label msg : String) (depth : Nat) :
    HNode → Option HNode → Except GoErr String
  | .nil, _ => .error (.notFound msg)
  | .mk t d _ fc ns, pns =>
    match (if t = .TextNode ∧ d = label then derefChain depth pns
           else extractChain label msg depth fc (some ns)) with
    | .ok l => .ok l
    | .error (.notFound _) => extractChain label msg depth ns pns
    | .error e => .error e

/-- Go's `f(doc)` at the document root: the root's own match case (the
root of a parsed document has nil `Parent`, so a matching root text node
panics), then the child loop; the root's siblings are never visited.
Calling `f` on a nil node would panic reading `n.Type`. -/
def extractRoot (label msg : String) (depth : Nat) : HNode → Except GoErr String
  | .nil => .error .nilPanic
  | .mk t d _ fc ns =>
    if t = .TextNode ∧ d = label then derefChain depth none
    else extractChain label msg depth fc (some ns)

/-- Go `getCommitHash` after `html.Parse`: search for the text node
`"commit"` and read `Parent.NextSibling.FirstChild.Data`. -/
def getCommitHash (doc : HNode) : Except GoErr String :=
  extractRoot "commit" "can't find commit!" 1 doc

/-- Go `getAuthor`: the same structural pattern keyed on `"author"`. -/
def getAuthor (doc : HNode) : Except GoErr String :=
  extractRoot "author" "can't find author!" 1 doc

/-- Go `getParentCommitLink`: keyed on `"parent"`, one `.FirstChild` level
deeper, and on success returns `repurl + "/+/" + value`. -/
def getParentCommitLink (doc : HNode) (repurl : String) : Except GoErr String :=
  match extractRoot "parent" "can't find commit!" 2 doc with
  | .ok s => .ok (repurl ++ "/+/" ++ s)
  | .error e => .error e

/-- chain constructor for examples: a text node. -/
def textN (s : String) (ns : HNode) : HNode := .mk .TextNode s [] .nil ns

/-- chain constructor for examples: an element node without attributes. -/
def elemN (tag : String) (fc ns : HNode) : HNode := .mk .ElementNode tag [] fc ns

/-- chain constructor for examples: a document root node. -/
def docN (fc : HNode) : HNode := .mk .DocumentNode "" [] fc .nil

example :
    getCommitHash (docN (elemN "td" (textN "commit" .nil)
      (elemN "td" (textN "abc123" .nil) .nil))) = .ok "abc123" := by decide

example :
    getCommitHash (docN (elemN "td" (textN "commit" .nil) .nil)) =
    .error .nilPanic := by decide

example :
    getCommitHash (docN (elemN "td" (textN "nope" .nil) .nil)) =
    .error (.notFound "can't find commit!") := by decide

example :
    getParentCommitLink
      (docN (elemN "td" (textN "parent" .nil)
        (elemN "td" (elemN "a" (textN "def456" .nil) .nil) .nil)))
      "https://x/repo" = .ok "https://x/repo/+/def456" := by decide

/-- the attribute condition of `getMainLink`'s inner loop:
`atr.Key == "href" && strings.Contains(atr.Val, "/"+branch)`. -/
def hrefPred (branch : String) (atr : GoAttr) : Bool :=
  atr.Key == "href" && goContains atr.Val ("/" ++ branch)

/-- the attribute scan of `getMainLink`: the Go loop over `n.Attr` returns
the value of the first attribute with key `"href"` whose value contains
the substring `"/" + branch`. -/
def findHrefAttr (branch : String) (attrs : List GoAttr) : Option String :=
  (attrs.find? (hrefPred branch)).map (fun atr => atr.Val)

/-- the recursive search of `getMainLink` over a sibling chain.  Go's
closure `f(n)`: if `n` is an element of tag `a`, scan its attributes and
return the first matching href value; otherwise (or when no attribute
matches) try the children in order, then fail with `"can't find link!"`;
the caller's loop continues with the next sibling on any error. -/
def mainLinkChain (branch : String) : HNode → Except GoErr String
  | .nil => .error (.notFound "can't find link!")
  | .mk t d attrs fc ns =>
    match (if t = .ElementNode ∧ d = "a" then
             match findHrefAttr branch attrs with
             | some v => .ok v
             | none => mainLinkChain branch fc
           else mainLinkChain branch fc) with
    | .ok l => .ok l
    | .error _ => mainLinkChain branch ns

/-- Go's `f(doc)` of `getMainLink` at the document root (whose siblings
are never visited). -/
def mainLinkRoot (branch : String) : HNode → Except GoErr String
  | .nil => .error .nilPanic
  | .mk t d attrs fc _ =>
    if t = .ElementNode ∧ d = "a" then
      match findHrefAttr branch attrs with
      | some v => .ok v
      | none => mainLinkChain branch fc
    else mainLinkChain branch fc

/-- Go `getMainLink` after `html.Parse`: the recursive href search, and on
success the literal site prefix `"https://chromium.googlesource.com"` is
prepended (hard-coded in the source, independent of the repository URL). -/
def getMainLink (doc : HNode) (branch : String) : Except GoErr String :=
  match mainLinkRoot branch doc with
  | .ok s => .ok ("https://chromium.googlesource.com" ++ s)
  | .error e => .error e

/-- the inner loop of `getCommitMessage`'s closure `f2` over a sibling
chain, fused with `f2` on each chain node: `f2(n)` returns `n.Data` for a
text node, and otherwise concatenates the results of the successful
children, failing with `"can't find text!"` when none succeeds (`m == 0`);
the loop accumulates the successful results in order and counts them. -/
def textAgg : HNode → String × Nat
  | .nil => ("", 0)
  | .mk t d _ fc ns =>
    match (if t = .TextNode then Except.ok d
           else match textAgg fc with
             | (_, 0) => Except.error (GoErr.notFound "can't find text!")
             | (total, _ + 1) => Except.ok total) with
    | .ok l => (l ++ (textAgg ns).1, (textAgg ns).2 + 1)
    | .error _ => textAgg ns

/-- Go's `f2(n)` of `getCommitMessage` on a single node: a text node
yields its data; any other node concatenates the successful children and
fails when none of them succeeds. -/
def f2Node : HNode → Except GoErr String
  | .nil => .error .nilPanic
  | .mk t d _ fc _ =>
    if t = .TextNode then .ok d
    else match textAgg fc with
      | (_, 0) => .error (.notFound "can't find text!")
      | (total, _ + 1) => .ok total

/-- the recursive search of `getCommitMessage`'s closure `f` over a
sibling chain: on an element of tag `pre` return `f2` of it (success or
failure, without descending further through `f`); otherwise try the
children, and on any error continue with the next sibling; fail with
`"can't find commit!"` at the end of the chain. -/
def preFindChain : HNode → Except GoErr String
  | .nil => .error (.notFound "can't find commit!")
  | .mk t d a fc ns =>
    match (if t = .ElementNode ∧ d = "pre" then f2Node (.mk t d a fc ns)
           else preFindChain fc) with
    | .ok l => .ok l
    | .error _ => preFindChain ns

/-- Go `getCommitMessage` after `html.Parse`: `f(doc)` at the document
root (whose siblings are never visited). -/
def getCommitMessage : HNode → Except GoErr String
  | .nil => .error .nilPanic
  | .mk t d a fc ns =>
    if t = .ElementNode ∧ d = "pre" then f2Node (.mk t d a fc ns)
    else preFindChain fc

/-- character-level splitting on the newline character, accumulating the
current line in reverse. -/
def splitLinesAux : List Char → List Char → List String
  | [], acc => [String.mk acc.reverse]
  | c :: rest, acc =>
    if c = '\n' then String.mk acc.reverse :: splitLinesAux rest []
    else splitLinesAux rest (c :: acc)

/-- Go `strings.Split(msg, "\n")` (the only separator the source splits
on): the segments of `msg` between newline characters, including empty
ones; the empty string yields `[""]`, as in Go. -/
def goSplitLines (s : String) : List String :=
  splitLinesAux s.toList []

example : goSplitLines "a\nbc\n" = ["a", "bc", ""] := by decide
example : goSplitLines "" = [""] := by decide

/-- Go `line[13:]`: the line with its first 13 bytes removed.  The guard
in `getReviewers` ensures those bytes are the ASCII prefix
`"Reviewed-by: "`, so 13 bytes are exactly 13 characters. -/
def lineAfter13 (line : String) : String :=
  String.mk (line.toList.drop 13)

/-- Go `getReviewers`: split the message on `"\n"`; a line both containing
`"Reviewed-by: "` and containing it at index 0 (i.e. starting with it)
contributes the line from byte 13 on.  The Go function's error result is
always nil, hence always `.ok`. -/
def getReviewers (msg : String) : Except GoErr (List String) :=
  .ok ((goSplitLines msg).foldl
    (fun revs line =>
      if goContains line "Reviewed-by: " && (goIndex line "Reviewed-by: " == 0)
      then revs ++ [lineAfter13 line] else revs) [])

example : getReviewers "Reviewed-by: A\nfoo\nReviewed-by: B\n" = .ok ["A", "B"] := by decide
example : getReviewers "x Reviewed-by: C\n" = .ok [] := by decide

/-- Go struct `Contribution` (source order: `Reviewed, Created int`).  The
counts stay far below 2^63, so Go's 64-bit overflow is immaterial and the
fields are modelled as naturals. -/
structure Contribution where
  Reviewed : Nat
  Created : Nat
deriving DecidableEq, Repr

/-- the contribution map `map[string]Contribution`, as an association list
with unique keys; Go map iteration order is unspecified, the list order
stands for one admissible iteration order. -/
abbrev ContMap := List (String × Contribution)

/-- Go map read `conts[k]` with its `ok` flag: the stored value, if any. -/
def goMapLookup : ContMap → String → Option Contribution
  | [], _ => none
  | (k', v) :: rest, k => if k' = k then some v else goMapLookup rest k

/-- Go map write `conts[k] = v`: replace the stored value or add a new
entry. -/
def goMapInsert : ContMap → String → Contribution → ContMap
  | [], k, v => [(k, v)]
  | (k', v') :: rest, k, v =>
    if k' = k then (k, v) :: rest else (k', v') :: goMapInsert rest k v

/-- lines 129-133 of `run`:
`if i, v := conts[author]; !v { conts[author] = Contribution{Created: 1, Reviewed: 0} } else { i.Created++ }`.
In the else branch `i` is a local copy of the map value (Go map reads copy
the value), so `i.Created++` increments the copy and discards it — the
stored entry is left unchanged. -/
def recordCreation (conts : ContMap) (author : String) : ContMap :=
  match goMapLookup conts author with
  | none => goMapInsert conts author { Created := 1, Reviewed := 0 }
  | some i =>
    let _updatedCopy := { i with Created := i.Created + 1 }
    conts

/-- lines 140-146 of `run`, the body of the reviewer loop:
`if i, v := conts[rev]; !v { conts[rev] = Contribution{Created: 0, Reviewed: 1} } else { i.Created++ }`.
As above, the else branch increments a discarded local copy (and even
targets the `Created` field rather than `Reviewed`); the stored entry is
left unchanged. -/
def recordReview (conts : ContMap) (rev : String) : ContMap :=
  match goMapLookup conts rev with
  | none => goMapInsert conts rev { Created := 0, Reviewed := 1 }
  | some i =>
    let _updatedCopy := { i with Created := i.Created + 1 }
    conts

/-- Go `buildCSVString`: the header, then `"\n" + k + "," + Itoa(Created)
+ "," + Itoa(Reviewed)` appended for each entry in iteration order. -/
def buildCSVString (conts : ContMap) : String :=
  conts.foldl
    (fun s kv =>
      s ++ "\n" ++ kv.1 ++ "," ++ toString kv.2.Created ++ "," ++ toString kv.2.Reviewed)
    "contributor,created,reviewed"

example :
    buildCSVString [("alice", { Created := 2, Reviewed := 0 }),
                    ("bob", { Created := 1, Reviewed := 2 })] =
    "contributor,created,reviewed\nalice,2,0\nbob,1,2" := by decide

/-- the external collaborators and fixed parameters of `run`: the page
fetcher (`fetchLink` followed by `html.Parse`, returning the parsed tree
of the navigated page) and the file writer (`ioutil.WriteFile`), both
fallible, plus the repository URL and the commit-file directory. -/
structure Env where
  fetch : String → Except GoErr HNode
  writeFile : String → String → Except GoErr Unit
  repurl : String
  cmtsPath : String

/-- the mutable state threaded through `run`'s loop: the current link, the
contribution map, and the commit files successfully written so far
(path and content), standing for the files present on disk. -/
structure LoopState where
  link : String
  conts : ContMap
  files : List (String × String)
deriving Repr

/-- one iteration of the traversal loop of `run` (lines 99-153), in source
order: fetch the page, extract the hash, compute the next link, extract
the message, extract the author and record the creation, extract the
reviewers and record each, then write `<cmtsPath><hash>.commit`.  Any
error (or panic) aborts the iteration at that point. -/
def runStep (env : Env) (st : LoopState) : Except GoErr LoopState := do
  let p ← env.fetch st.link
  let cmt ← getCommitHash p
  let link2 ← getParentCommitLink p env.repurl
  let msg ← getCommitMessage p
  let author ← getAuthor p
  let conts1 := recordCreation st.conts author
  let reviewers ← getReviewers msg
  let conts2 := reviewers.foldl recordReview conts1
  let _ ← env.writeFile (env.cmtsPath ++ cmt ++ ".commit") msg
  pure { link := link2, conts := conts2,
         files := st.files ++ [(env.cmtsPath ++ cmt ++ ".commit", msg)] }

/-- the loop `for i := 0; i < cnumber; i++` of `run`: iterate `runStep`;
the first failing iteration stops everything, returning the error and the
state as it was before that iteration (in particular the files written by
the completed iterations, which stay on disk). -/
def runLoop (env : Env) : Nat → LoopState → Except GoErr Unit × LoopState
  | 0, st => (.ok (), st)
  | n + 1, st =>
    match runStep env st with
    | .error e => (.error e, st)
    | .ok st2 => runLoop env n st2

/-- a qualifying anchor in the sense of `getMainLink`: an element node of
tag `a` with some attribute of key `href` whose value contains the
substring `"/" + branch`. -/
def isQualAnchor (branch : String) (n : HNode) : Bool :=
  n.nodeType == .ElementNode && n.data == "a" && n.attr.any (hrefPred branch)

/-- the href value `getMainLink` selects on a qualifying anchor: the value
of its first matching href attribute. -/
def selHref (branch : String) (n : HNode) : String :=
  (findHrefAttr branch n.attr).getD ""

/-- an element node of tag `pre`. -/
def isPreElem (n : HNode) : Bool :=
  n.nodeType == .ElementNode && n.data == "pre"

/-- a text node. -/
def isTextNode (n : HNode) : Bool :=
  n.nodeType == .TextNode

/-- whether a sibling chain contains a text node anywhere. -/
def chainHasText : HNode → Bool
  | .nil => false
  | .mk t _ _ fc ns => (t == .TextNode || chainHasText fc) || chainHasText ns

/-- whether the subtree of a single node contains a text node (the node
itself included). -/
def nodeHasText : HNode → Bool
  | .nil => false
  | .mk t _ _ fc _ => t == .TextNode || chainHasText fc

/-- concatenated text of a sibling chain in document order: a text node
contributes its data, every other node the text of its children. -/
def chainAllText : HNode → String
  | .nil => ""
  | .mk t d _ fc ns => (if t = .TextNode then d else chainAllText fc) ++ chainAllText ns

/-- concatenated text of the subtree of a single node. -/
def nodeAllText : HNode → String
  | .nil => ""
  | .mk t d _ fc _ => if t = .TextNode then d else chainAllText fc

/-- the spec's reading of the message body: concatenation, in document
pre-order with no separators, of the data of every text node in the
subtree. -/
def textsConcat (n : HNode) : String :=
  String.join ((preorderNodes n).filterMap
    (fun m => if isTextNode m then some m.data else none))

/-- text nodes of this sibling chain and all of its subtrees are leaves,
as `html.Parse` guarantees for parsed documents. -/
def chainTextLeaves : HNode → Bool
  | .nil => true
  | .mk t _ _ fc ns =>
    (!(t == .TextNode) || (fc == .nil)) && chainTextLeaves fc && chainTextLeaves ns

/-- an abstract recording operation on the contribution map: what the
author branch or one reviewer-loop pass of `run` performs. -/
inductive RecOp where
  | creation : String → RecOp
  | review : String → RecOp
deriving DecidableEq, Repr

/-- application of one recording operation. -/
def applyRecOp (conts : ContMap) : RecOp → ContMap
  | .creation s => recordCreation conts s
  | .review s => recordReview conts s

/-- application of a sequence of recording operations, oldest first. -/
def applyRecOps (conts : ContMap) (ops : List RecOp) : ContMap :=
  ops.foldl applyRecOp conts

/-! ### Lemmas on the Go map model -/

/-- Lookup after insert: the inserted key reads the inserted value, every
other key is unaffected. -/
theorem goMapLookup_goMapInsert (m : ContMap) (s k : String) (w : Contribution) :
    goMapLookup (goMapInsert m s w) k =
      if s = k then some w else goMapLookup m k := by
  induction m with
  | nil => simp [goMapInsert, goMapLookup]
  | cons kv rest ih =>
    obtain ⟨k', v'⟩ := kv
    by_cases hks : k' = s
    · subst hks
      simp only [goMapInsert, if_pos rfl, goMapLookup]
      by_cases hk : k' = k
      · subst hk; simp
      · simp [hk, goMapLookup]
    · simp only [goMapInsert, if_neg hks, goMapLookup]
      by_cases hk : k' = k
      · subst hk
        have hsk : ¬ s = k' := fun h => hks h.symm
        simp [hsk]
      · simp [hk, ih]

/-- a stored entry is never changed by either recording operation: the
absent-key branch only adds a fresh key, and the present-key branch
increments a discarded local copy. -/
theorem applyRecOp_preserves_lookup (conts : ContMap) (op : RecOp) (k : String)
    (v : Contribution) (h : goMapLookup conts k = some v) :
    goMapLookup (applyRecOp conts op) k = some v := by
  cases op with
  | creation s =>
    simp only [applyRecOp, recordCreation]
    cases hs : goMapLookup conts s with
    | none =>
      rw [goMapLookup_goMapInsert]
      have hne : ¬ s = k := by
        intro hsk; subst hsk; rw [h] at hs; exact Option.noConfusion hs
      simp [hne, h]
    | some i => exact h
  | review s =>
    simp only [applyRecOp, recordReview]
    cases hs : goMapLookup conts s with
    | none =>
      rw [goMapLookup_goMapInsert]
      have hne : ¬ s = k := by
        intro hsk; subst hsk; rw [h] at hs; exact Option.noConfusion hs
      simp [hne, h]
    | some i => exact h

/-- the value shape invariant: every stored value is one of the two
insertion literals. -/
def contShape (m : ContMap) : Prop :=
  ∀ k v, goMapLookup m k = some v →
    v = { Created := 1, Reviewed := 0 } ∨ v = { Created := 0, Reviewed := 1 }

/-- one recording operation preserves the value-shape invariant. -/
theorem applyRecOp_contShape {m : ContMap} (hm : contShape m) (op : RecOp) :
    contShape (applyRecOp m op) := by
  cases op with
  | creation s =>
    simp only [applyRecOp, recordCreation]
    cases hs : goMapLookup m s with
    | none =>
      intro k v hv
      rw [goMapLookup_goMapInsert] at hv
      by_cases hsk : s = k
      · simp only [if_pos hsk] at hv
        exact Or.inl (Option.some.inj hv).symm
      · simp only [if_neg hsk] at hv
        exact hm k v hv
    | some i => exact hm
  | review s =>
    simp only [applyRecOp, recordReview]
    cases hs : goMapLookup m s with
    | none =>
      intro k v hv
      rw [goMapLookup_goMapInsert] at hv
      by_cases hsk : s = k
      · simp only [if_pos hsk] at hv
        exact Or.inr (Option.some.inj hv).symm
      · simp only [if_neg hsk] at hv
        exact hm k v hv
    | some i => exact hm

/-- a sequence of recording operations preserves the value-shape
invariant. -/
theorem applyRecOps_contShape {m : ContMap} (hm : contShape m) (ops : List RecOp) :
    contShape (applyRecOps m ops) := by
  induction ops generalizing m with
  | nil => exact hm
  | cons op rest ih => exact ih (applyRecOp_contShape hm op)

/-! ### Claims C1, C2 (aggregator accumulation) and C10 (actual invariant) -/

/-- C1: the claim says two `recordCreation("alice")` calls on a fresh
aggregator leave `alice` at `{created:2, reviewed:0}`, the second call
genuinely incrementing the stored count.  The code evaluates differently:
the second call increments a local copy of the map value and discards it,
so the stored entry stays `{created:1, reviewed:0}` and is not `2`. -/
theorem recordCreation_twice_drops_increment :
    recordCreation (recordCreation [] "alice") "alice" =
      [("alice", { Created := 1, Reviewed := 0 })] ∧
    goMapLookup (recordCreation (recordCreation [] "alice") "alice") "alice" =
      some { Created := 1, Reviewed := 0 } ∧
    ¬ goMapLookup (recordCreation (recordCreation [] "alice") "alice") "alice" =
      some { Created := 2, Reviewed := 0 } := by
  decide

/-- C2: the claim says `recordReview("bob")` twice then
`recordCreation("bob")` once yields `{created:1, reviewed:2}`.  The code
evaluates differently: only the first `recordReview` inserts
`{created:0, reviewed:1}`; the second `recordReview` and the
`recordCreation` both increment a discarded local copy (both of them even
target the `Created` field), so the stored entry stays
`{created:0, reviewed:1}`. -/
theorem recordReview_recordCreation_drop_increments :
    goMapLookup (recordCreation (recordReview (recordReview [] "bob") "bob") "bob") "bob" =
      some { Created := 0, Reviewed := 1 } ∧
    ¬ goMapLookup (recordCreation (recordReview (recordReview [] "bob") "bob") "bob") "bob" =
      some { Created := 1, Reviewed := 2 } := by
  decide

/-- C10: invariant of the contribution map as implemented — starting from
the empty map, any sequence of recording operations leaves every stored
value equal to `{Created:1, Reviewed:0}` or `{Created:0, Reviewed:1}` (so
`Created + Reviewed = 1`), and a stored entry is never changed by a later
operation. -/
theorem contMap_invariant :
    (∀ (ops : List RecOp) (k : String) (v : Contribution),
        goMapLookup (applyRecOps [] ops) k = some v →
          (v = { Created := 1, Reviewed := 0 } ∨ v = { Created := 0, Reviewed := 1 }) ∧
            v.Created + v.Reviewed = 1) ∧
    (∀ (conts : ContMap) (op : RecOp) (k : String) (v : Contribution),
        goMapLookup conts k = some v →
          goMapLookup (applyRecOp conts op) k = some v) := by
  constructor
  · intro ops k v hv
    have hshape : contShape (applyRecOps [] ops) := by
      refine applyRecOps_contShape ?_ ops
      intro k v h
      simp [goMapLookup] at h
    have h := hshape k v hv
    refine ⟨h, ?_⟩
    rcases h with h | h <;> subst h <;> rfl
  · exact applyRecOp_preserves_lookup

/-- Witness for C10 at concrete inputs: one creation then one review for
`"a"`, then a review for `"b"`; the stored value of `"a"` is
`{Created:1, Reviewed:0}` and survives the later operation. -/
theorem contMap_invariant_witness :
    goMapLookup (applyRecOps [] [.creation "a", .review "a", .review "b"]) "a" =
      some { Created := 1, Reviewed := 0 } ∧
    ((({ Created := 1, Reviewed := 0 } : Contribution) =
        { Created := 1, Reviewed := 0 } ∨
      ({ Created := 1, Reviewed := 0 } : Contribution) =
        { Created := 0, Reviewed := 1 }) ∧
      (1 : Nat) + 0 = 1) ∧
    goMapLookup (applyRecOp [("a", { Created := 1, Reviewed := 0 })] (.review "b")) "a" =
      some { Created := 1, Reviewed := 0 } :=
  ⟨by decide,
   contMap_invariant.1 [.creation "a", .review "a", .review "b"] "a"
     { Created := 1, Reviewed := 0 } (by decide),
   contMap_invariant.2 [("a", { Created := 1, Reviewed := 0 })] (.review "b") "a"
     { Created := 1, Reviewed := 0 } (by decide)⟩

/-! ### Claim C3: broken structural chains make the extractors panic -/

/-- C3: the claim says a found label with a broken structural chain makes
the extractor return a not-found error rather than crash.  The code
evaluates differently on each breakage mode: `getCommitHash` on a label
whose parent has no next sibling, `getAuthor` on a label whose parent's
next sibling has no child, and `getParentCommitLink` on a label whose
value cell lacks the second nesting level all dereference a nil pointer —
a panic, not an error return. -/
theorem extractors_panic_on_broken_chain :
    getCommitHash (docN (elemN "td" (textN "commit" .nil) .nil)) =
      .error .nilPanic ∧
    getAuthor (docN (elemN "td" (textN "author" .nil) (elemN "td" .nil .nil))) =
      .error .nilPanic ∧
    getParentCommitLink
        (docN (elemN "td" (textN "parent" .nil)
          (elemN "td" (elemN "a" .nil .nil) .nil))) "https://r" =
      .error .nilPanic ∧
    ¬ getCommitHash (docN (elemN "td" (textN "commit" .nil) .nil)) =
      .error (.notFound "can't find commit!") := by
  decide

/-! ### Claim C5: reviewer trailer extraction -/

/-- positions reported by the index scan never precede the start index. -/
theorem goIndexAux_le {sub : List Char} :
    ∀ (l : List Char) (i n : Nat), goIndexAux sub l i = some n → i ≤ n := by
  intro l
  induction l with
  | nil =>
    intro i n h
    simp only [goIndexAux] at h
    split at h
    · exact Nat.le_of_eq (Option.some.inj h)
    · exact Option.noConfusion h
  | cons c t ih =>
    intro i n h
    simp only [goIndexAux] at h
    split at h
    · exact Nat.le_of_eq (Option.some.inj h)
    · exact Nat.le_of_succ_le (ih (i + 1) n h)

/-- the guard of `getReviewers` — `strings.Contains` and
`strings.Index == 0` together — is exactly "the line starts with the
trailer prefix". -/
theorem reviewGuard_eq (line : String) :
    (goContains line "Reviewed-by: " && (goIndex line "Reviewed-by: " == 0)) =
      "Reviewed-by: ".toList.isPrefixOf line.toList := by
  unfold goContains goIndex
  cases hp : "Reviewed-by: ".toList.isPrefixOf line.toList with
  | true =>
    have h0 : goIndexAux "Reviewed-by: ".toList line.toList 0 = some 0 := by
      cases hl : line.toList with
      | nil => rw [hl] at hp; exact absurd hp (by decide)
      | cons c t =>
        rw [hl] at hp
        simp only [goIndexAux]
        rw [if_pos hp]
    rw [h0]
    decide
  | false =>
    cases h : goIndexAux "Reviewed-by: ".toList line.toList 0 with
    | none => decide
    | some n =>
      have hn : 1 ≤ n := by
        cases hl : line.toList with
        | nil =>
          rw [hl] at h
          simp only [goIndexAux] at h
          split at h
          · rename_i hcond
            exact absurd hcond (by decide)
          · exact Option.noConfusion h
        | cons c t =>
          rw [hl] at h hp
          simp only [goIndexAux] at h
          rw [if_neg (by rw [hp]; exact Bool.false_ne_true)] at h
          exact goIndexAux_le t 1 n h
      have hne : ((n : Int) == 0) = false := by
        simp only [beq_eq_false_iff_ne, ne_eq, Nat.cast_eq_zero]
        omega
      show (decide ((0 : Int) ≤ (n : Int)) && ((n : Int) == 0)) = false
      rw [hne, Bool.and_false]

/-- appending-fold of a guarded collector is a `filterMap`. -/
theorem foldl_guard_append {α β : Type} (p : α → Bool) (f : α → β) :
    ∀ (l : List α) (acc : List β),
      l.foldl (fun acc a => if p a then acc ++ [f a] else acc) acc =
        acc ++ l.filterMap (fun a => if p a then some (f a) else none) := by
  intro l
  induction l with
  | nil => intro acc; simp
  | cons a t ih =>
    intro acc
    cases h : p a <;> simp [List.foldl_cons, h, ih]

/-- C5: `getReviewers` returns exactly the after-prefix suffixes of the
lines starting (at offset 0) with the 13-character trailer
`"Reviewed-by: "`, in line order with duplicates preserved; lines with
the trailer elsewhere contribute nothing, as the two literal examples of
the spec confirm. -/
theorem getReviewers_line_initial_trailers :
    (∀ msg : String,
        getReviewers msg =
          .ok ((goSplitLines msg).filterMap
            (fun line =>
              if "Reviewed-by: ".toList.isPrefixOf line.toList
              then some (lineAfter13 line) else none))) ∧
    getReviewers "Reviewed-by: A\nfoo\nReviewed-by: B\n" = .ok ["A", "B"] ∧
    getReviewers "x Reviewed-by: C\n" = .ok [] := by
  refine ⟨?_, by decide, by decide⟩
  intro msg
  unfold getReviewers
  simp only [reviewGuard_eq]
  rw [foldl_guard_append (fun line => "Reviewed-by: ".toList.isPrefixOf line.toList)
    lineAfter13 (goSplitLines msg) []]
  rw [List.nil_append]

/-! ### Claim C9: CSV rendering -/

/-- folding string concatenation distributes over an appended start. -/
theorem foldl_string_append (l : List String) :
    ∀ x y : String, l.foldl (· ++ ·) (x ++ y) = x ++ l.foldl (· ++ ·) y := by
  induction l with
  | nil => intro x y; rfl
  | cons a t ih =>
    intro x y
    simp only [List.foldl_cons]
    rw [String.append_assoc, ih]

/-- joining a non-empty list peels off its head. -/
theorem string_join_cons (a : String) (l : List String) :
    String.join (a :: l) = a ++ String.join l := by
  have h := foldl_string_append l a ""
  rw [String.append_empty] at h
  show List.foldl (· ++ ·) ("" ++ a) l = a ++ List.foldl (· ++ ·) "" l
  rw [String.empty_append]
  exact h

/-- the worker of `String.intercalate` appends one separator-prefixed
piece per remaining element. -/
theorem intercalate_go_join (s : String) :
    ∀ (l : List String) (acc : String),
      String.intercalate.go acc s l = acc ++ String.join (l.map (fun x => s ++ x)) := by
  intro l
  induction l with
  | nil => intro acc; simp [String.intercalate.go, String.join]
  | cons a t ih =>
    intro acc
    simp only [String.intercalate.go, List.map_cons]
    rw [ih, string_join_cons]
    simp [String.append_assoc]

/-- the accumulating fold of `buildCSVString` appends one
newline-prefixed row per entry. -/
theorem buildCSV_foldl (conts : ContMap) :
    ∀ acc : String,
      conts.foldl
        (fun s kv =>
          s ++ "\n" ++ kv.1 ++ "," ++ toString kv.2.Created ++ "," ++ toString kv.2.Reviewed)
        acc =
      acc ++ String.join (conts.map
        (fun kv => "\n" ++ (kv.1 ++ "," ++ toString kv.2.Created ++ "," ++ toString kv.2.Reviewed))) := by
  induction conts with
  | nil => intro acc; simp [String.join]
  | cons kv rest ih =>
    intro acc
    simp only [List.foldl_cons, List.map_cons]
    rw [ih, string_join_cons]
    simp [String.append_assoc]

/-- C9: `buildCSVString` renders the header line followed by exactly one
line per stored contributor, `identity,created,reviewed`, in map
iteration order (the association-list order stands for the iteration
order); in particular the two-entry aggregator of the spec renders to the
header plus the rows `alice,2,0` and `bob,1,2`. -/
theorem buildCSVString_header_and_rows :
    (∀ conts : ContMap,
        buildCSVString conts =
          String.intercalate "\n" ("contributor,created,reviewed" ::
            conts.map (fun kv =>
              kv.1 ++ "," ++ toString kv.2.Created ++ "," ++ toString kv.2.Reviewed))) ∧
    buildCSVString [("alice", { Created := 2, Reviewed := 0 }),
                    ("bob", { Created := 1, Reviewed := 2 })] =
      "contributor,created,reviewed\nalice,2,0\nbob,1,2" := by
  refine ⟨?_, by decide⟩
  intro conts
  unfold buildCSVString
  rw [buildCSV_foldl conts "contributor,created,reviewed"]
  show _ = String.intercalate.go "contributor,created,reviewed" "\n" (conts.map _)
  rw [intercalate_go_join "\n" (conts.map _) "contributor,created,reviewed"]
  rw [List.map_map]
  rfl

/-! ### Claims C4 and C7: branch-link resolution -/

/-- the chain search of `getMainLink` finds exactly the first qualifying
anchor of the chain in document pre-order, and its selected href. -/
theorem mainLinkChain_find? (branch : String) :
    ∀ ch : HNode,
      mainLinkChain branch ch =
        match (preChain ch).find? (isQualAnchor branch) with
        | some n => .ok (selHref branch n)
        | none => .error (.notFound "can't find link!") := by
  intro ch
  induction ch with
  | nil => simp [mainLinkChain, preChain]
  | mk t d a fc ns ihfc ihns =>
    simp only [preChain]
    by_cases hqa : (t = GoNodeType.ElementNode ∧ d = "a")
    · cases hfind : a.find? (hrefPred branch) with
      | some atr =>
        have hq : isQualAnchor branch (.mk t d a fc ns) = true := by
          simp only [isQualAnchor, HNode.nodeType, HNode.data, HNode.attr, hqa.1, hqa.2,
            beq_self_eq_true, Bool.true_and, List.any_eq_true]
          exact ⟨atr, List.mem_of_find?_eq_some hfind, List.find?_some hfind⟩
        rw [List.find?_cons_of_pos _ hq]
        simp only [mainLinkChain]
        rw [if_pos hqa]
        simp [findHrefAttr, hfind, selHref, HNode.attr]
      | none =>
        have hany : a.any (hrefPred branch) = false := by
          rw [List.any_eq_false]
          intro atr hmem hp
          exact (List.find?_eq_none.mp hfind atr hmem) hp
        have hq : isQualAnchor branch (.mk t d a fc ns) = false := by
          simp [isQualAnchor, HNode.attr, hany]
        rw [List.find?_cons_of_neg _ (by simp [hq]), List.find?_append]
        simp only [mainLinkChain]
        rw [if_pos hqa]
        have hnone : findHrefAttr branch a = none := by simp [findHrefAttr, hfind]
        rw [hnone, ihfc]
        cases hfc : (preChain fc).find? (isQualAnchor branch) with
        | some m => simp [Option.or]
        | none => simp [Option.or, ihns]
    · have hq : isQualAnchor branch (.mk t d a fc ns) = false := by
        cases not_and_or.mp hqa with
        | inl h => simp [isQualAnchor, HNode.nodeType, h]
        | inr h => simp [isQualAnchor, HNode.nodeType, HNode.data, h]
      rw [List.find?_cons_of_neg _ (by simp [hq]), List.find?_append]
      simp only [mainLinkChain]
      rw [if_neg hqa, ihfc]
      cases hfc : (preChain fc).find? (isQualAnchor branch) with
      | some m => simp [Option.or]
      | none => simp [Option.or, ihns]

/-- the root-level search of `getMainLink` finds exactly the first
qualifying anchor of the whole document in pre-order. -/
theorem mainLinkRoot_find? (branch : String) (t : GoNodeType) (d : String)
    (a : List GoAttr) (fc ns : HNode) :
    mainLinkRoot branch (.mk t d a fc ns) =
      match (preorderNodes (.mk t d a fc ns)).find? (isQualAnchor branch) with
      | some n => .ok (selHref branch n)
      | none => .error (.notFound "can't find link!") := by
  simp only [preorderNodes]
  by_cases hqa : (t = GoNodeType.ElementNode ∧ d = "a")
  · cases hfind : a.find? (hrefPred branch) with
    | some atr =>
      have hq : isQualAnchor branch (.mk t d a fc ns) = true := by
        simp only [isQualAnchor, HNode.nodeType, HNode.data, HNode.attr, hqa.1, hqa.2,
          beq_self_eq_true, Bool.true_and, List.any_eq_true]
        exact ⟨atr, List.mem_of_find?_eq_some hfind, List.find?_some hfind⟩
      rw [List.find?_cons_of_pos _ hq]
      simp only [mainLinkRoot]
      rw [if_pos hqa]
      simp [findHrefAttr, hfind, selHref, HNode.attr]
    | none =>
      have hany : a.any (hrefPred branch) = false := by
        rw [List.any_eq_false]
        intro atr hmem hp
        exact (List.find?_eq_none.mp hfind atr hmem) hp
      have hq : isQualAnchor branch (.mk t d a fc ns) = false := by
        simp [isQualAnchor, HNode.attr, hany]
      rw [List.find?_cons_of_neg _ (by simp [hq])]
      simp only [mainLinkRoot]
      rw [if_pos hqa]
      have hnone : findHrefAttr branch a = none := by simp [findHrefAttr, hfind]
      rw [hnone]
      exact mainLinkChain_find? branch fc
  · have hq : isQualAnchor branch (.mk t d a fc ns) = false := by
      cases not_and_or.mp hqa with
      | inl h => simp [isQualAnchor, HNode.nodeType, h]
      | inr h => simp [isQualAnchor, HNode.nodeType, HNode.data, h]
    rw [List.find?_cons_of_neg _ (by simp [hq])]
    simp only [mainLinkRoot]
    rw [if_neg hqa]
    exact mainLinkChain_find? branch fc

/-- C4: on every document tree, the branch-link search returns the href
selected from the qualifying anchor appearing earliest in depth-first
pre-order (an element of tag `a` with an href attribute containing
`"/" + branch`; the value of its first such attribute), and on a tree
with no qualifying anchor it fails with the not-found error — never a
default value.  (`getMainLink` then prefixes the hard-coded site string,
see the origin theorem.) -/
theorem getMainLink_selects_first_preorder_anchor :
    ∀ (t : GoNodeType) (d : String) (a : List GoAttr) (fc ns : HNode) (branch : String),
      mainLinkRoot branch (.mk t d a fc ns) =
        match (preorderNodes (.mk t d a fc ns)).find? (isQualAnchor branch) with
        | some n => .ok (selHref branch n)
        | none => .error (.notFound "can't find link!") :=
  fun t d a fc ns branch => mainLinkRoot_find? branch t d a fc ns

/-- consume characters up to (excluding) the first slash. -/
def upToSlash : List Char → List Char
  | [] => []
  | c :: t => if c = '/' then [] else c :: upToSlash t

/-- scan for the scheme separator and keep scheme, separator and host. -/
def originAux : List Char → List Char
  | ':' :: '/' :: '/' :: rest => ':' :: '/' :: '/' :: upToSlash rest
  | [] => []
  | c :: rest => c :: originAux rest

/-- Modelled from the spec: the "site's origin" (`scheme://host`) of a
URL, which the spec says is prefixed to the found href to form the
absolute branch URL; the source computes no origin anywhere — it uses a
hard-coded literal — so this definition follows the spec's words. -/
def specOrigin (url : String) : String :=
  String.mk (originAux url.toList)

example : specOrigin "https://example.com/repo/" = "https://example.com" := by decide
example : specOrigin "https://chromium.googlesource.com/x/y" =
  "https://chromium.googlesource.com" := by decide

/-- Counterexample to C7 as stated: for the repository root URL
`https://example.com/repo/` and branch `main`, on a page whose anchor has
href `/main` the code produces the hard-coded
`https://chromium.googlesource.com/main`, not the repository site's
origin followed by the href. -/
theorem getMainLink_ignores_repo_origin :
    getMainLink (docN (.mk .ElementNode "a" [{ Key := "href", Val := "/main" }] .nil .nil))
        "main" =
      .ok ("https://chromium.googlesource.com" ++ "/main") ∧
    specOrigin "https://example.com/repo/" = "https://example.com" ∧
    ¬ ("https://chromium.googlesource.com" ++ "/main" =
        specOrigin "https://example.com/repo/" ++ "/main") := by
  decide

/-- C7 (amended): the absolute branch URL is the literal
`"https://chromium.googlesource.com"` — the origin of the default
repository's site, not an origin computed from the given repository URL —
concatenated with the href of the earliest qualifying anchor. -/
theorem getMainLink_prefixes_hardcoded_site :
    ∀ (t : GoNodeType) (d : String) (a : List GoAttr) (fc ns : HNode) (branch : String),
      getMainLink (.mk t d a fc ns) branch =
        match (preorderNodes (.mk t d a fc ns)).find? (isQualAnchor branch) with
        | some n => .ok ("https://chromium.googlesource.com" ++ selHref branch n)
        | none => .error (.notFound "can't find link!") := by
  intro t d a fc ns branch
  unfold getMainLink
  rw [mainLinkRoot_find? branch t d a fc ns]
  cases h : (preorderNodes (.mk t d a fc ns)).find? (isQualAnchor branch) <;> simp

/-! ### Claim C6: commit-message extraction -/

/-- a chain without text nodes concatenates to the empty string. -/
theorem chainAllText_of_not_hasText :
    ∀ ch : HNode, chainHasText ch = false → chainAllText ch = "" := by
  intro ch
  induction ch with
  | nil => intro _; rfl
  | mk t d a fc ns ihfc ihns =>
    intro h
    simp only [chainHasText, Bool.or_eq_false_iff] at h
    obtain ⟨⟨ht, hfc⟩, hns⟩ := h
    have ht2 : ¬ t = GoNodeType.TextNode := by
      intro hc; subst hc; simp at ht
    simp only [chainAllText, if_neg ht2, ihfc hfc, ihns hns, String.append_empty]

/-- the fused `f2` loop accumulates exactly the chain's text, and counts
zero successes exactly when the chain has no text node. -/
theorem textAgg_spec :
    ∀ ch : HNode,
      (textAgg ch).1 = chainAllText ch ∧
        ((textAgg ch).2 = 0 ↔ chainHasText ch = false) := by
  intro ch
  induction ch with
  | nil => exact ⟨rfl, by simp [textAgg, chainHasText]⟩
  | mk t d a fc ns ihfc ihns =>
    by_cases ht : t = GoNodeType.TextNode
    · simp only [textAgg, if_pos ht]
      constructor
      · simp only [chainAllText, if_pos ht]
        rw [ihns.1]
      · simp [chainHasText, ht]
    · rcases hfc : textAgg fc with ⟨tot, m⟩
      cases m with
      | zero =>
        have hfcText : chainHasText fc = false := ihfc.2.mp (by rw [hfc])
        simp only [textAgg, if_neg ht, hfc]
        constructor
        · rw [ihns.1]
          simp only [chainAllText, if_neg ht, chainAllText_of_not_hasText fc hfcText,
            String.empty_append]
        · have htb : (t == GoNodeType.TextNode) = false := by simp [ht]
          simp only [chainHasText, htb, hfcText, Bool.false_or]
          exact ihns.2
      | succ m2 =>
        have hfc2 : ¬ (textAgg fc).2 = 0 := by rw [hfc]; simp
        have hfcText : chainHasText fc = true := by
          cases hct : chainHasText fc with
          | false => exact absurd (ihfc.2.mpr hct) hfc2
          | true => rfl
        have htot : tot = chainAllText fc := by rw [← ihfc.1, hfc]
        simp only [textAgg, if_neg ht, hfc]
        constructor
        · simp only [chainAllText, if_neg ht]
          rw [htot, ihns.1]
        · simp [chainHasText, ht, hfcText]

/-- `f2` on a single node succeeds exactly when its subtree has a text
node, returning the subtree's concatenated text. -/
theorem f2Node_char (t : GoNodeType) (d : String) (a : List GoAttr) (fc ns : HNode) :
    f2Node (.mk t d a fc ns) =
      if nodeHasText (.mk t d a fc ns) then .ok (nodeAllText (.mk t d a fc ns))
      else .error (.notFound "can't find text!") := by
  by_cases ht : t = GoNodeType.TextNode
  · simp [f2Node, nodeHasText, nodeAllText, ht]
  · have htb : (t == GoNodeType.TextNode) = false := by simp [ht]
    rcases hfc : textAgg fc with ⟨tot, m⟩
    cases m with
    | zero =>
      have hfcText : chainHasText fc = false := (textAgg_spec fc).2.mp (by rw [hfc])
      simp only [f2Node, if_neg ht, hfc, nodeHasText, htb, hfcText, Bool.false_or]
      rfl
    | succ m2 =>
      have hfc2 : ¬ (textAgg fc).2 = 0 := by rw [hfc]; simp
      have hfcText : chainHasText fc = true := by
        cases hct : chainHasText fc with
        | false => exact absurd ((textAgg_spec fc).2.mpr hct) hfc2
        | true => rfl
      have htot : tot = chainAllText fc := by rw [← (textAgg_spec fc).1, hfc]
      simp only [f2Node, if_neg ht, hfc, nodeHasText, htb, hfcText, Bool.false_or,
        if_pos, nodeAllText]
      rw [htot]

/-- a chain without text nodes has no node whose subtree has text. -/
theorem not_hasText_members :
    ∀ ch : HNode, chainHasText ch = false →
      ∀ n ∈ preChain ch, nodeHasText n = false := by
  intro ch
  induction ch with
  | nil => intro _ n hn; simp [preChain] at hn
  | mk t d a fc ns ihfc ihns =>
    intro h n hn
    simp only [chainHasText, Bool.or_eq_false_iff] at h
    obtain ⟨⟨ht, hfc⟩, hns⟩ := h
    simp only [preChain, List.mem_cons, List.mem_append] at hn
    rcases hn with hn | hn | hn
    · subst hn
      simp [nodeHasText, ht, hfc]
    · exact ihfc hfc n hn
    · exact ihns hns n hn

/-- the `pre`-search of `getCommitMessage` over a chain returns the text
of the earliest `pre` element (in document pre-order) whose subtree holds
a text node, skipping textless `pre` elements, and fails only when no
such element exists. -/
theorem preFindChain_find? :
    ∀ ch : HNode,
      preFindChain ch =
        match (preChain ch).find? (fun n => isPreElem n && nodeHasText n) with
        | some p => .ok (nodeAllText p)
        | none => .error (.notFound "can't find commit!") := by
  intro ch
  induction ch with
  | nil => simp [preFindChain, preChain]
  | mk t d a fc ns ihfc ihns =>
    simp only [preChain]
    by_cases hpre : (t = GoNodeType.ElementNode ∧ d = "pre")
    · have hisPre : isPreElem (.mk t d a fc ns) = true := by
        simp [isPreElem, HNode.nodeType, HNode.data, hpre.1, hpre.2]
      cases hnt : nodeHasText (.mk t d a fc ns) with
      | true =>
        rw [List.find?_cons_of_pos _ (by simp [hisPre, hnt])]
        simp only [preFindChain]
        rw [if_pos hpre, f2Node_char, if_pos hnt]
      | false =>
        have hfcText : chainHasText fc = false := by
          simp only [nodeHasText, Bool.or_eq_false_iff] at hnt
          exact hnt.2
        have hfcNone :
            (preChain fc).find? (fun n => isPreElem n && nodeHasText n) = none := by
          apply List.find?_eq_none.mpr
          intro n hn
          simp [not_hasText_members fc hfcText n hn]
        rw [List.find?_cons_of_neg _ (by simp [hnt]), List.find?_append, hfcNone]
        simp only [preFindChain]
        rw [if_pos hpre, f2Node_char, if_neg (by simp [hnt])]
        simp only [Option.none_or]
        exact ihns
    · have hisPre : isPreElem (.mk t d a fc ns) = false := by
        cases not_and_or.mp hpre with
        | inl h => simp [isPreElem, HNode.nodeType, h]
        | inr h => simp [isPreElem, HNode.nodeType, HNode.data, h]
      rw [List.find?_cons_of_neg _ (by simp [hisPre]), List.find?_append]
      simp only [preFindChain]
      rw [if_neg hpre, ihfc]
      cases hfc : (preChain fc).find? (fun n => isPreElem n && nodeHasText n) with
      | some m => simp [Option.or]
      | none => simp [Option.or, ihns]

/-- a chain holds a text node exactly when its document-order listing
holds one. -/
theorem chainHasText_eq_any :
    ∀ ch : HNode, chainHasText ch = (preChain ch).any isTextNode := by
  intro ch
  induction ch with
  | nil => rfl
  | mk t d a fc ns ihfc ihns =>
    simp only [chainHasText, preChain, List.any_cons, List.any_append, ihfc, ihns,
      isTextNode, HNode.nodeType]
    cases t == GoNodeType.TextNode <;>
      cases (preChain fc).any isTextNode <;>
      cases (preChain ns).any isTextNode <;> rfl

/-- a subtree holds a text node exactly when its pre-order listing holds
one. -/
theorem nodeHasText_eq_any :
    ∀ n : HNode, nodeHasText n = (preorderNodes n).any isTextNode := by
  intro n
  cases n with
  | nil => rfl
  | mk t d a fc ns =>
    simp only [nodeHasText, preorderNodes, List.any_cons, isTextNode, HNode.nodeType,
      chainHasText_eq_any]

/-- joining distributes over list append. -/
theorem string_join_append :
    ∀ l1 l2 : List String, String.join (l1 ++ l2) = String.join l1 ++ String.join l2 := by
  intro l1 l2
  induction l1 with
  | nil => simp [String.join]
  | cons a t ih =>
    simp only [List.cons_append, string_join_cons, ih, String.append_assoc]

/-- text nodes are leaves inside the subtree of a single node. -/
def nodeTextLeaves : HNode → Bool
  | .nil => true
  | .mk t _ _ fc _ => (!(t == GoNodeType.TextNode) || (fc == HNode.nil)) && chainTextLeaves fc

/-- every node listed by a leaf-text chain is itself leaf-text. -/
theorem chainTextLeaves_members :
    ∀ ch : HNode, chainTextLeaves ch = true →
      ∀ n ∈ preChain ch, nodeTextLeaves n = true := by
  intro ch
  induction ch with
  | nil => intro _ n hn; simp [preChain] at hn
  | mk t d a fc ns ihfc ihns =>
    intro h n hn
    simp only [chainTextLeaves, Bool.and_eq_true] at h
    obtain ⟨⟨hx, hfc⟩, hns⟩ := h
    simp only [preChain, List.mem_cons, List.mem_append] at hn
    rcases hn with hn | hn | hn
    · subst hn
      simp only [nodeTextLeaves, Bool.and_eq_true]
      exact ⟨hx, hfc⟩
    · exact ihfc hfc n hn
    · exact ihns hns n hn

/-- on leaf-text chains, the chain's concatenated text is the join of the
data of its text nodes in document order. -/
theorem chainAllText_join :
    ∀ ch : HNode, chainTextLeaves ch = true →
      chainAllText ch =
        String.join ((preChain ch).filterMap
          (fun m => if isTextNode m then some m.data else none)) := by
  intro ch
  induction ch with
  | nil => intro _; rfl
  | mk t d a fc ns ihfc ihns =>
    intro h
    simp only [chainTextLeaves, Bool.and_eq_true] at h
    obtain ⟨⟨hx, hfc⟩, hns⟩ := h
    simp only [preChain, List.filterMap_cons, List.filterMap_append]
    by_cases ht : t = GoNodeType.TextNode
    · subst ht
      have hfcnil : fc = HNode.nil := by simpa using hx
      subst hfcnil
      simp [chainAllText, preChain, isTextNode, HNode.nodeType, HNode.data,
        string_join_cons, ihns hns]
    · have htb : isTextNode (.mk t d a fc ns) = false := by
        simp [isTextNode, HNode.nodeType, ht]
      rw [htb]
      simp only [Bool.false_eq_true, if_false]
      rw [string_join_append]
      simp only [chainAllText, if_neg ht, ihfc hfc, ihns hns]

/-- on a leaf-text subtree, the subtree's concatenated text equals the
spec's pre-order concatenation of all descendant text node data. -/
theorem nodeAllText_textsConcat :
    ∀ n : HNode, nodeTextLeaves n = true → nodeAllText n = textsConcat n := by
  intro n
  cases n with
  | nil => intro _; rfl
  | mk t d a fc ns =>
    intro h
    simp only [nodeTextLeaves, Bool.and_eq_true] at h
    obtain ⟨hx, hfc⟩ := h
    unfold textsConcat
    simp only [preorderNodes, List.filterMap_cons]
    by_cases ht : t = GoNodeType.TextNode
    · subst ht
      have hfcnil : fc = HNode.nil := by simpa using hx
      subst hfcnil
      simp [nodeAllText, preChain, isTextNode, HNode.nodeType, HNode.data,
        string_join_cons, String.join]
    · have htb : isTextNode (.mk t d a fc ns) = false := by
        simp [isTextNode, HNode.nodeType, ht]
      rw [htb]
      simp only [Bool.false_eq_true, if_false, nodeAllText, if_neg ht]
      exact chainAllText_join fc hfc

/-- Counterexample to C6 as stated: on a document whose first `pre`
element (in pre-order) has zero descendant text nodes but whose second
`pre` holds the text `x`, the claim demands failure with an error; the
code instead skips the textless first `pre` and returns `x`. -/
theorem getCommitMessage_skips_textless_first_pre :
    ((preorderNodes (docN (elemN "pre" .nil (elemN "pre" (textN "x" .nil) .nil)))).find?
        isPreElem).map nodeHasText = some false ∧
    getCommitMessage (docN (elemN "pre" .nil (elemN "pre" (textN "x" .nil) .nil))) =
      .ok "x" := by
  decide

/-- C6 (amended): on a parsed document (root a document node, text nodes
leaves, as `html.Parse` guarantees), `getCommitMessage` locates the first
element of tag `pre` in document pre-order whose subtree contains at
least one text node and returns the concatenation, in pre-order with no
separators, of the data of every descendant text node under it; it fails
with the not-found error when no such `pre` exists — in particular when
no `pre` element exists at all.  A textless first `pre` is skipped, not
fatal (see the counterexample). -/
theorem getCommitMessage_first_textful_pre :
    ∀ (d : String) (a : List GoAttr) (fc ns : HNode),
      chainTextLeaves fc = true →
      getCommitMessage (.mk .DocumentNode d a fc ns) =
        match (preorderNodes (.mk .DocumentNode d a fc ns)).find?
            (fun n => isPreElem n && (preorderNodes n).any isTextNode) with
        | some p => .ok (textsConcat p)
        | none => .error (.notFound "can't find commit!") := by
  intro d a fc ns hleaves
  have hpredeq :
      (fun n => isPreElem n && (preorderNodes n).any isTextNode) =
        (fun n => isPreElem n && nodeHasText n) := by
    funext n
    rw [nodeHasText_eq_any]
  rw [hpredeq]
  simp only [preorderNodes]
  have hroot : isPreElem (.mk GoNodeType.DocumentNode d a fc ns) = false := by
    simp [isPreElem, HNode.nodeType]
  rw [List.find?_cons_of_neg _ (by simp [hroot])]
  simp only [getCommitMessage]
  rw [if_neg (by simp)]
  rw [preFindChain_find? fc]
  cases hfind : (preChain fc).find? (fun n => isPreElem n && nodeHasText n) with
  | some p =>
    have hp : nodeTextLeaves p = true :=
      chainTextLeaves_members fc hleaves p (List.mem_of_find?_eq_some hfind)
    simp only []
    rw [nodeAllText_textsConcat p hp]
  | none => rfl

/-- Witness for C6 at a concrete document with one textful `pre`. -/
theorem getCommitMessage_first_textful_pre_witness :
    chainTextLeaves (elemN "pre" (textN "Hello" .nil) .nil) = true ∧
    getCommitMessage (.mk .DocumentNode "" [] (elemN "pre" (textN "Hello" .nil) .nil) .nil) =
      match (preorderNodes
          (.mk GoNodeType.DocumentNode "" [] (elemN "pre" (textN "Hello" .nil) .nil) .nil)).find?
          (fun n => isPreElem n && (preorderNodes n).any isTextNode) with
      | some p => .ok (textsConcat p)
      | none => .error (.notFound "can't find commit!") :=
  ⟨by decide,
   getCommitMessage_first_textful_pre "" [] (elemN "pre" (textN "Hello" .nil) .nil) .nil
     (by decide)⟩

/-! ### Claim C8: error propagation in the traversal loop -/

/-- C8: the first error of any iteration (fetch, extraction or file
write) aborts the whole loop immediately — the failing iteration's error
is returned and the state, in particular the list of commit files already
on disk from prior completed iterations, is exactly what it was before
that iteration: no retry, no skipping, no additional file.  A successful
iteration simply continues with the next, and a fetched page on which
every extraction up to the author step succeeds but the `author` label is
missing makes the iteration fail with exactly the author not-found error;
a failing file write likewise aborts the iteration with the write's
error. -/
theorem run_aborts_on_first_error :
    (∀ (env : Env) (st : LoopState) (e : GoErr),
        runStep env st = .error e →
        ∀ n : Nat, runLoop env (n + 1) st = (.error e, st)) ∧
    (∀ (env : Env) (st st2 : LoopState),
        runStep env st = .ok st2 →
        ∀ n : Nat, runLoop env (n + 1) st = runLoop env n st2) ∧
    (∀ (env : Env) (st : LoopState) (p : HNode) (c pl m : String),
        env.fetch st.link = .ok p →
        getCommitHash p = .ok c →
        getParentCommitLink p env.repurl = .ok pl →
        getCommitMessage p = .ok m →
        getAuthor p = .error (.notFound "can't find author!") →
        runStep env st = .error (.notFound "can't find author!")) ∧
    (∀ (env : Env) (st : LoopState) (p : HNode) (c pl m au : String) (e : GoErr),
        env.fetch st.link = .ok p →
        getCommitHash p = .ok c →
        getParentCommitLink p env.repurl = .ok pl →
        getCommitMessage p = .ok m →
        getAuthor p = .ok au →
        env.writeFile (env.cmtsPath ++ c ++ ".commit") m = .error e →
        runStep env st = .error e) := by
  refine ⟨?_, ?_, ?_, ?_⟩
  · intro env st e h n
    simp [runLoop, h]
  · intro env st st2 h n
    simp [runLoop, h]
  · intro env st p c pl m hf hc hl hm ha
    simp [runStep, hf, hc, hl, hm, ha, Bind.bind, Except.bind]
  · intro env st p c pl m au e hf hc hl hm ha hw
    simp [runStep, hf, hc, hl, hm, ha, hw, getReviewers, Bind.bind, Except.bind]

/-- a fixture commit page with a commit hash cell, a parent link cell and
a message body, but no `author` label anywhere. -/
def pageNoAuthor : HNode :=
  docN (elemN "tr"
    (elemN "td" (textN "commit" .nil) (elemN "td" (textN "abc123" .nil) .nil))
    (elemN "tr"
      (elemN "td" (textN "parent" .nil)
        (elemN "td" (elemN "a" (textN "def456" .nil) .nil) .nil))
      (elemN "pre" (textN "Hello" .nil) .nil)))

/-- a fixture environment whose fetcher always serves `pageNoAuthor` and
whose file writer always succeeds, with one commit file already on disk
from a previously completed iteration. -/
def envNoAuthor : Env :=
  { fetch := fun _ => .ok pageNoAuthor
    writeFile := fun _ _ => .ok ()
    repurl := "https://r"
    cmtsPath := "/out/" }

/-- the loop state before the failing iteration. -/
def stBefore : LoopState :=
  { link := "https://r/+/head", conts := [], files := [("/out/prev.commit", "prev")] }

/-- Witness for C8: on the author-less fixture the iteration fails with
the author not-found error, and a 3-iteration run aborts at once with
that error, the previously written file list unchanged. -/
theorem run_aborts_on_first_error_witness :
    runStep envNoAuthor stBefore = .error (.notFound "can't find author!") ∧
    runLoop envNoAuthor 3 stBefore = (.error (.notFound "can't find author!"), stBefore) := by
  have hf : envNoAuthor.fetch stBefore.link = .ok pageNoAuthor := rfl
  have hc : getCommitHash pageNoAuthor = .ok "abc123" := by decide
  have hl : getParentCommitLink pageNoAuthor envNoAuthor.repurl = .ok "https://r/+/def456" := by
    decide
  have hm : getCommitMessage pageNoAuthor = .ok "Hello" := by decide
  have ha : getAuthor pageNoAuthor = .error (.notFound "can't find author!") := by decide
  have hstep :=
    run_aborts_on_first_error.2.2.1 envNoAuthor stBefore pageNoAuthor "abc123"
      "https://r/+/def456" "Hello" hf hc hl hm ha
  exact ⟨hstep, run_aborts_on_first_error.1 envNoAuthor stBefore _ hstep 2⟩
